import Mathlib

/-!
# Verification of the `react-history-state` history manager

Shallow embedding of `src/utils/history.ts`: the `HistoryState` record, the
`HistoryAction` intents, the pure reducer `historyReducer`, and the initial
state produced by `createHistoryManager`.  JavaScript arrays are modelled as
`List`, array indices as `Nat` (the reducer only ever stores non-negative
indices; the caller-supplied index of `GO_TO_INDEX` is an `Int`, as any
JavaScript number may be passed).  `state.history[state.currentIndex]` in the
`CLEAR` branch is modelled with `List.getD`; the fallback is never reached on
states satisfying the reducer's invariant (proved below).
-/

namespace ReactHistoryState

/-- Options for creating a history manager (`HistoryManagerOptions`). -/
structure HistoryManagerOptions where
  maxHistory : Nat
  enableRedo : Bool
deriving Repr, DecidableEq

/-- The manager's persistent record (`HistoryState<T>`). -/
structure HistoryState (T : Type) where
  history : List T
  currentIndex : Nat
  initialState : T
deriving Repr, DecidableEq

/-- History manager actions (`HistoryAction<T>`). -/
inductive HistoryAction (T : Type) where
  | SET_STATE (payload : T)
  | UNDO
  | REDO
  | RESET
  | CLEAR
  | GO_TO_INDEX (payload : Int)
deriving Repr, DecidableEq

/-- Reducer function for managing history state (`historyReducer`).
`slice(0, i)` is `take i`, `push` is append, `slice(-k)` (only evaluated
when `length > k`) is `drop (length - k)`, and
`Math.max(0, Math.min(i, len - 1))` is computed in `Int` and converted
with `toNat` (the clamped value is never negative). -/
def historyReducer {T : Type} (state : HistoryState T)
    (action : HistoryAction T) (options : HistoryManagerOptions) :
    HistoryState T :=
  match action with
  | .SET_STATE payload =>
      let newHistory := state.history.take (state.currentIndex + 1) ++ [payload]
      let trimmedHistory :=
        if newHistory.length > options.maxHistory then
          newHistory.drop (newHistory.length - options.maxHistory)
        else
          newHistory
      { state with
        history := trimmedHistory
        currentIndex := trimmedHistory.length - 1 }
  | .UNDO =>
      if state.currentIndex > 0 then
        { state with currentIndex := state.currentIndex - 1 }
      else
        state
  | .REDO =>
      if options.enableRedo ∧ state.currentIndex < state.history.length - 1 then
        { state with currentIndex := state.currentIndex + 1 }
      else
        state
  | .RESET =>
      { state with
        history := [state.initialState]
        currentIndex := 0 }
  | .CLEAR =>
      let currentState := state.history.getD state.currentIndex state.initialState
      { state with
        history := [currentState]
        currentIndex := 0 }
  | .GO_TO_INDEX payload =>
      let targetIndex : Int :=
        max 0 (min payload ((state.history.length : Int) - 1))
      { state with currentIndex := targetIndex.toNat }

/-- The state a fresh manager holds after `createHistoryManager(initialState, options)`:
`{ history: [initialState], currentIndex: 0, initialState }`. -/
def initialHistoryState {T : Type} (initialState : T) : HistoryState T :=
  { history := [initialState]
    currentIndex := 0
    initialState := initialState }

/-- The states a manager created with `initialState` and `options` can hold:
the initial state, closed under applying `historyReducer` with any action.
Each manager method dispatches exactly one action to the reducer. -/
inductive Reachable {T : Type} (options : HistoryManagerOptions)
    (initialState : T) : HistoryState T → Prop
  | init : Reachable options initialState (initialHistoryState initialState)
  | step (s : HistoryState T) (a : HistoryAction T) :
      Reachable options initialState s →
      Reachable options initialState (historyReducer s a options)

/-- The data-model invariant: non-empty bounded history, cursor in range. -/
def Inv {T : Type} (maxHistory : Nat) (s : HistoryState T) : Prop :=
  1 ≤ s.history.length ∧ s.history.length ≤ maxHistory ∧
    s.currentIndex ≤ s.history.length - 1

/-- The eviction step of the `SET_STATE` branch, factored out:
`trimTo m l` is the value of `l.length > m ? l.slice(-m) : l` for `m ≥ 1`
(for `m = 0` JavaScript's `slice(-0)` would return the whole array, but
`maxHistory` is validated to be positive at the construction boundary). -/
def trimTo {T : Type} (m : Nat) (l : List T) : List T :=
  if l.length > m then l.drop (l.length - m) else l

/-- A sequence of consecutive `setState` calls, applied left to right. -/
def applyWrites {T : Type} (options : HistoryManagerOptions)
    (s : HistoryState T) (vs : List T) : HistoryState T :=
  vs.foldl (fun t v => historyReducer t (.SET_STATE v) options) s

/-- Mirrors, branch by branch, whether `historyReducer` exits through a
`return { ...state, ... }` statement, constructing a fresh record (`true`),
or through a `return state;` statement, handing back the very record it was
given (`false`).  The `UNDO` branch constructs a record only when
`state.currentIndex > 0`; the `REDO` branch only when
`options.enableRedo && state.currentIndex < state.history.length - 1`;
every other branch always constructs one. -/
def historyReducerReturnsNewRecord {T : Type} (state : HistoryState T)
    (action : HistoryAction T) (options : HistoryManagerOptions) : Bool :=
  match action with
  | .SET_STATE _ => true
  | .UNDO => decide (state.currentIndex > 0)
  | .REDO =>
      options.enableRedo &&
        decide (state.currentIndex < state.history.length - 1)
  | .RESET => true
  | .CLEAR => true
  | .GO_TO_INDEX _ => true

/-! ## Helper lemmas -/

theorem inv_preserved {T : Type} (options : HistoryManagerOptions)
    (hmax : 1 ≤ options.maxHistory) (s : HistoryState T)
    (hs : Inv options.maxHistory s) (a : HistoryAction T) :
    Inv options.maxHistory (historyReducer s a options) := by
  obtain ⟨h1, h2, h3⟩ := hs
  cases a with
  | SET_STATE payload =>
      simp only [historyReducer]
      split
      · rename_i hlen
        dsimp only [Inv]
        simp only [List.length_drop, List.length_append, List.length_take,
          List.length_cons, List.length_nil, gt_iff_lt] at hlen ⊢
        omega
      · rename_i hlen
        dsimp only [Inv]
        simp only [List.length_append, List.length_take, List.length_cons,
          List.length_nil, gt_iff_lt, not_lt] at hlen ⊢
        omega
  | UNDO =>
      simp only [historyReducer]
      split
      · dsimp only [Inv]
        omega
      · exact ⟨h1, h2, h3⟩
  | REDO =>
      simp only [historyReducer]
      split
      · rename_i h
        dsimp only [Inv]
        omega
      · exact ⟨h1, h2, h3⟩
  | RESET =>
      dsimp only [historyReducer, Inv]
      simp only [List.length_cons, List.length_nil]
      omega
  | CLEAR =>
      dsimp only [historyReducer, Inv]
      simp only [List.length_cons, List.length_nil]
      omega
  | GO_TO_INDEX payload =>
      dsimp only [historyReducer, Inv]
      omega

theorem inv_reachable {T : Type} (options : HistoryManagerOptions)
    (hmax : 1 ≤ options.maxHistory) (initialState : T) (s : HistoryState T)
    (hs : Reachable options initialState s) : Inv options.maxHistory s := by
  induction hs with
  | init =>
      exact ⟨by simp [initialHistoryState], by simp [initialHistoryState]; omega,
        by simp [initialHistoryState]⟩
  | step s a _ ih => exact inv_preserved options hmax s ih a

theorem trimTo_eq_drop {T : Type} (m : Nat) (l : List T) :
    trimTo m l = l.drop (l.length - m) := by
  unfold trimTo
  split
  · rfl
  · rename_i h
    have hz : l.length - m = 0 := by omega
    rw [hz, List.drop_zero]

theorem length_trimTo {T : Type} (m : Nat) (l : List T) :
    (trimTo m l).length = min l.length m := by
  rw [trimTo_eq_drop, List.length_drop]
  omega

theorem trimTo_append {T : Type} (m : Nat) (a b : List T) :
    trimTo m (trimTo m a ++ b) = trimTo m (a ++ b) := by
  rcases le_or_lt a.length m with h | h
  · have ha : trimTo m a = a := by
      unfold trimTo
      rw [if_neg (by omega)]
    rw [ha]
  · simp only [trimTo_eq_drop]
    rw [List.drop_append_eq_append_drop, List.drop_append_eq_append_drop,
      List.drop_drop]
    congr 1
    · congr 1
      simp only [List.length_append, List.length_drop]
      omega
    · congr 1
      simp only [List.length_append, List.length_drop]
      omega

theorem take_length_pred_succ {T : Type} (l : List T) :
    l.take (l.length - 1 + 1) = l := by
  cases l with
  | nil => rfl
  | cons x xs =>
      have : (x :: xs).length - 1 + 1 = (x :: xs).length := by
        simp only [List.length_cons]
        omega
      rw [this, List.take_length]

/-- The `SET_STATE` branch of the reducer, written with `trimTo`. -/
theorem setState_eq {T : Type} (options : HistoryManagerOptions)
    (s : HistoryState T) (v : T) :
    historyReducer s (.SET_STATE v) options =
      { s with
        history :=
          trimTo options.maxHistory (s.history.take (s.currentIndex + 1) ++ [v])
        currentIndex :=
          (trimTo options.maxHistory
            (s.history.take (s.currentIndex + 1) ++ [v])).length - 1 } :=
  rfl

/-- The `UNDO` branch when the cursor is not at the start. -/
theorem undo_eq_pos {T : Type} (options : HistoryManagerOptions)
    (s : HistoryState T) (h : 0 < s.currentIndex) :
    historyReducer s .UNDO options =
      { s with currentIndex := s.currentIndex - 1 } := by
  simp only [historyReducer]
  rw [if_pos h]

/-- The `UNDO` branch when the cursor is at the start: `return state`. -/
theorem undo_eq_zero {T : Type} (options : HistoryManagerOptions)
    (s : HistoryState T) (h : s.currentIndex = 0) :
    historyReducer s .UNDO options = s := by
  simp only [historyReducer]
  rw [if_neg (by omega)]

/-- The `REDO` branch when redo is enabled and a future entry exists. -/
theorem redo_eq_step {T : Type} (options : HistoryManagerOptions)
    (s : HistoryState T) (h1 : options.enableRedo = true)
    (h2 : s.currentIndex < s.history.length - 1) :
    historyReducer s .REDO options =
      { s with currentIndex := s.currentIndex + 1 } := by
  simp only [historyReducer]
  rw [if_pos ⟨h1, h2⟩]

/-- The `REDO` branch in the no-op case: `return state`. -/
theorem redo_eq_noop {T : Type} (options : HistoryManagerOptions)
    (s : HistoryState T)
    (h : ¬(options.enableRedo = true ∧ s.currentIndex < s.history.length - 1)) :
    historyReducer s .REDO options = s := by
  simp only [historyReducer]
  rw [if_neg h]

theorem reset_eq {T : Type} (options : HistoryManagerOptions)
    (s : HistoryState T) :
    historyReducer s .RESET options =
      { s with history := [s.initialState], currentIndex := 0 } :=
  rfl

theorem clear_eq {T : Type} (options : HistoryManagerOptions)
    (s : HistoryState T) :
    historyReducer s .CLEAR options =
      { s with
        history := [s.history.getD s.currentIndex s.initialState]
        currentIndex := 0 } :=
  rfl

theorem goToIndex_eq {T : Type} (options : HistoryManagerOptions)
    (s : HistoryState T) (i : Int) :
    historyReducer s (.GO_TO_INDEX i) options =
      { s with
        currentIndex :=
          (max 0 (min i ((s.history.length : Int) - 1))).toNat } :=
  rfl

/-- No action ever changes the `initialState` field. -/
theorem initialState_historyReducer {T : Type} (options : HistoryManagerOptions)
    (s : HistoryState T) (a : HistoryAction T) :
    (historyReducer s a options).initialState = s.initialState := by
  cases a with
  | SET_STATE payload => rfl
  | UNDO =>
      simp only [historyReducer]
      split
      · rfl
      · rfl
  | REDO =>
      simp only [historyReducer]
      split
      · rfl
      · rfl
  | RESET => rfl
  | CLEAR => rfl
  | GO_TO_INDEX payload => rfl

/-- Every reachable state still carries the construction-time initial value. -/
theorem reachable_initialState {T : Type} (options : HistoryManagerOptions)
    (initialState : T) (s : HistoryState T)
    (hs : Reachable options initialState s) : s.initialState = initialState := by
  induction hs with
  | init => rfl
  | step s a _ ih => rw [initialState_historyReducer, ih]

theorem applyWrites_nil {T : Type} (options : HistoryManagerOptions)
    (s : HistoryState T) : applyWrites options s [] = s :=
  rfl

theorem applyWrites_cons {T : Type} (options : HistoryManagerOptions)
    (s : HistoryState T) (v : T) (vs : List T) :
    applyWrites options s (v :: vs) =
      applyWrites options (historyReducer s (.SET_STATE v) options) vs :=
  rfl

theorem applyWrites_history {T : Type} (options : HistoryManagerOptions)
    (vs : List T) : ∀ (v : T) (s : HistoryState T),
    (applyWrites options s (v :: vs)).history =
      trimTo options.maxHistory
        (s.history.take (s.currentIndex + 1) ++ (v :: vs)) ∧
    (applyWrites options s (v :: vs)).currentIndex =
      (applyWrites options s (v :: vs)).history.length - 1 := by
  induction vs with
  | nil =>
      intro v s
      rw [applyWrites_cons, applyWrites_nil, setState_eq]
      exact ⟨rfl, rfl⟩
  | cons w ws ih =>
      intro v s
      rw [applyWrites_cons, setState_eq]
      obtain ⟨ihh, ihc⟩ := ih w
        { s with
          history :=
            trimTo options.maxHistory (s.history.take (s.currentIndex + 1) ++ [v])
          currentIndex :=
            (trimTo options.maxHistory
              (s.history.take (s.currentIndex + 1) ++ [v])).length - 1 }
      refine ⟨?_, ihc⟩
      rw [ihh]
      dsimp only
      rw [take_length_pred_succ, trimTo_append, List.append_assoc]
      rfl

/-- After more writes than the capacity, the history is exactly the last
`maxHistory` written values and the cursor sits on the newest entry. -/
theorem applyWrites_eviction {T : Type} (options : HistoryManagerOptions)
    (s : HistoryState T) (vs : List T)
    (hlen : options.maxHistory < vs.length) :
    (applyWrites options s vs).history =
      vs.drop (vs.length - options.maxHistory) ∧
    (applyWrites options s vs).currentIndex = options.maxHistory - 1 := by
  cases vs with
  | nil =>
      simp only [List.length_nil] at hlen
      omega
  | cons v ws =>
      obtain ⟨hh, hc⟩ := applyWrites_history options ws v s
      simp only [List.length_cons] at hlen
      have hdrop : (applyWrites options s (v :: ws)).history =
          (v :: ws).drop ((v :: ws).length - options.maxHistory) := by
        rw [hh, trimTo_eq_drop, List.drop_append_eq_append_drop]
        have hnil : (s.history.take (s.currentIndex + 1)).drop
            ((s.history.take (s.currentIndex + 1) ++ v :: ws).length -
              options.maxHistory) = [] := by
          apply List.drop_eq_nil_of_le
          simp only [List.length_append, List.length_cons]
          omega
        rw [hnil, List.nil_append]
        congr 1
        simp only [List.length_append, List.length_cons]
        omega
      refine ⟨hdrop, ?_⟩
      rw [hc, hdrop, List.length_drop]
      simp only [List.length_cons] at hlen ⊢
      omega

/-! ## Claims -/

/-- C1: for a manager created with `maxHistory ≥ 1`, every reachable state
satisfies `1 ≤ history.length ≤ maxHistory` and
`0 ≤ currentIndex ≤ history.length - 1` (so the cursor is in range). -/
theorem reachable_state_invariant {T : Type} (options : HistoryManagerOptions)
    (hmax : 1 ≤ options.maxHistory) (initialState : T) (s : HistoryState T)
    (hs : Reachable options initialState s) :
    1 ≤ s.history.length ∧ s.history.length ≤ options.maxHistory ∧
      s.currentIndex ≤ s.history.length - 1 ∧
      s.currentIndex < s.history.length := by
  obtain ⟨h1, h2, h3⟩ := inv_reachable options hmax initialState s hs
  exact ⟨h1, h2, h3, by omega⟩

theorem reachable_state_invariant_witness :
    1 ≤ (initialHistoryState (0 : Nat)).history.length ∧
    (initialHistoryState (0 : Nat)).history.length ≤ 50 ∧
    (initialHistoryState (0 : Nat)).currentIndex ≤
      (initialHistoryState (0 : Nat)).history.length - 1 ∧
    (initialHistoryState (0 : Nat)).currentIndex <
      (initialHistoryState (0 : Nat)).history.length :=
  reachable_state_invariant ⟨50, true⟩ (by decide) 0 (initialHistoryState 0)
    (@Reachable.init Nat ⟨50, true⟩ 0)

/-- C2: `setState` truncates the history to `[0, currentIndex]`, appends the
payload, keeps only the last `maxHistory` elements when the capacity is
exceeded, and places the cursor on the new last index; consequently more than
`maxHistory` consecutive writes, from any state, leave a history of length
exactly `maxHistory` holding the most recent writes in order, cursor on the
newest entry. -/
theorem setState_sliding_window {T : Type} (options : HistoryManagerOptions)
    (s : HistoryState T) (v : T) (vs : List T)
    (hlen : options.maxHistory < vs.length) :
    historyReducer s (.SET_STATE v) options =
      { s with
        history :=
          trimTo options.maxHistory (s.history.take (s.currentIndex + 1) ++ [v])
        currentIndex :=
          (trimTo options.maxHistory
            (s.history.take (s.currentIndex + 1) ++ [v])).length - 1 } ∧
    (applyWrites options s vs).history =
      vs.drop (vs.length - options.maxHistory) ∧
    (applyWrites options s vs).history.length = options.maxHistory ∧
    (applyWrites options s vs).currentIndex =
      (applyWrites options s vs).history.length - 1 := by
  obtain ⟨hh, hc⟩ := applyWrites_eviction options s vs hlen
  refine ⟨setState_eq options s v, hh, ?_, ?_⟩
  · rw [hh, List.length_drop]
    omega
  · rw [hc, hh, List.length_drop]
    omega

theorem setState_sliding_window_witness :
    (applyWrites ⟨2, true⟩ (initialHistoryState (0 : Nat)) [1, 2, 3]).history =
      [2, 3] :=
  (setState_sliding_window ⟨2, true⟩ (initialHistoryState 0) 5 [1, 2, 3]
    (by decide)).2.1

/-- C3: when no eviction occurs (`currentIndex + 2 ≤ maxHistory`), `undo`
immediately after `setState v` lands on a snapshot equal to the one that was
current before the write.  The cursor-in-range hypothesis holds for every
reachable state by the C1 invariant. -/
theorem setState_then_undo_restores_snapshot {T : Type}
    (options : HistoryManagerOptions) (s : HistoryState T) (v : T)
    (hci : s.currentIndex < s.history.length)
    (hnoevict : s.currentIndex + 2 ≤ options.maxHistory) :
    (historyReducer (historyReducer s (.SET_STATE v) options)
        .UNDO options).history.get?
      (historyReducer (historyReducer s (.SET_STATE v) options)
        .UNDO options).currentIndex =
      s.history.get? s.currentIndex := by
  have hP : (s.history.take (s.currentIndex + 1)).length = s.currentIndex + 1 := by
    rw [List.length_take, min_eq_left (by omega)]
  have hs1 : historyReducer s (.SET_STATE v) options =
      { s with
        history := s.history.take (s.currentIndex + 1) ++ [v]
        currentIndex := s.currentIndex + 1 } := by
    rw [setState_eq]
    have htrim : trimTo options.maxHistory
        (s.history.take (s.currentIndex + 1) ++ [v]) =
        s.history.take (s.currentIndex + 1) ++ [v] := by
      unfold trimTo
      rw [if_neg]
      simp only [List.length_append, hP, List.length_cons, List.length_nil,
        gt_iff_lt, not_lt]
      omega
    rw [htrim]
    have hlen2 : (s.history.take (s.currentIndex + 1) ++ [v]).length - 1 =
        s.currentIndex + 1 := by
      simp only [List.length_append, hP, List.length_cons, List.length_nil]
      omega
    rw [hlen2]
  rw [hs1, undo_eq_pos options
    { s with
      history := s.history.take (s.currentIndex + 1) ++ [v]
      currentIndex := s.currentIndex + 1 }
    (Nat.succ_pos s.currentIndex)]
  dsimp only
  have hget1 : (s.history.take (s.currentIndex + 1) ++ [v]).get?
      (s.currentIndex + 1 - 1) =
      (s.history.take (s.currentIndex + 1)).get? (s.currentIndex + 1 - 1) :=
    List.get?_append (by rw [hP]; omega)
  have hget2 : (s.history.take (s.currentIndex + 1)).get?
      (s.currentIndex + 1 - 1) =
      s.history.get? (s.currentIndex + 1 - 1) :=
    List.get?_take (by omega)
  rw [hget1, hget2, Nat.add_sub_cancel]

theorem setState_then_undo_restores_snapshot_witness :
    (historyReducer (historyReducer (initialHistoryState (0 : Nat))
        (HistoryAction.SET_STATE 7) ⟨50, true⟩) HistoryAction.UNDO
        ⟨50, true⟩).history.get?
      (historyReducer (historyReducer (initialHistoryState (0 : Nat))
        (HistoryAction.SET_STATE 7) ⟨50, true⟩) HistoryAction.UNDO
        ⟨50, true⟩).currentIndex = some 0 :=
  setState_then_undo_restores_snapshot ⟨50, true⟩ (initialHistoryState 0) 7
    (by decide) (by decide)

/-- C4 as stated is false: `clear` also discards entries located after the
cursor.  From the reachable state `⟨[0, 1], 0, 0⟩` (reached by writing `1`
and then undoing), `CLEAR` drops the entry `1` that sits after the cursor. -/
theorem clear_discards_future_entry :
    Reachable ⟨2, true⟩ (0 : Nat) ⟨[0, 1], 0, 0⟩ ∧
    (⟨[0, 1], 0, 0⟩ : HistoryState Nat).currentIndex < 1 ∧
    (1 : Nat) ∈ (⟨[0, 1], 0, 0⟩ : HistoryState Nat).history ∧
    (historyReducer (⟨[0, 1], 0, 0⟩ : HistoryState Nat) HistoryAction.CLEAR
      ⟨2, true⟩).history = [0] ∧
    (1 : Nat) ∉ (historyReducer (⟨[0, 1], 0, 0⟩ : HistoryState Nat)
      HistoryAction.CLEAR ⟨2, true⟩).history := by
  refine ⟨?_, by decide, by decide, by decide, by decide⟩
  have h := Reachable.step _ HistoryAction.UNDO
    (Reachable.step _ (HistoryAction.SET_STATE 1) (@Reachable.init Nat ⟨2, true⟩ 0))
  have he : historyReducer (historyReducer (initialHistoryState (0 : Nat))
      (HistoryAction.SET_STATE 1) ⟨2, true⟩) HistoryAction.UNDO ⟨2, true⟩ =
      (⟨[0, 1], 0, 0⟩ : HistoryState Nat) := by decide
  rw [he] at h
  exact h

/-- C4 amended: `undo`, `redo`, and `goToIndex` never change the history
contents; only `setState`, `reset`, and `clear` can remove entries. -/
theorem nav_actions_preserve_history {T : Type}
    (options : HistoryManagerOptions) (s : HistoryState T) (i : Int) :
    (historyReducer s .UNDO options).history = s.history ∧
    (historyReducer s .REDO options).history = s.history ∧
    (historyReducer s (.GO_TO_INDEX i) options).history = s.history := by
  refine ⟨?_, ?_, rfl⟩
  · simp only [historyReducer]
    split
    · rfl
    · rfl
  · simp only [historyReducer]
    split
    · rfl
    · rfl

/-- C5 as stated is false: in the no-op case of `undo` at `currentIndex = 0`
the code takes the `return state;` branch, handing back the input record
itself rather than a freshly constructed one (and the result is the very
same state). -/
theorem undo_noop_returns_input_record :
    Reachable ⟨50, true⟩ (0 : Nat) (initialHistoryState 0) ∧
    historyReducerReturnsNewRecord (initialHistoryState (0 : Nat))
      HistoryAction.UNDO ⟨50, true⟩ = false ∧
    historyReducer (initialHistoryState (0 : Nat)) HistoryAction.UNDO
      ⟨50, true⟩ = initialHistoryState 0 :=
  ⟨@Reachable.init Nat ⟨50, true⟩ 0, by decide, by decide⟩

/-- C5 amended: no operation mutates the prior history (the reducer is a
pure function of its input), and an operation returns a freshly constructed
record exactly when its branch changes the state: always for `setState`,
`reset`, `clear`, and `goToIndex`; for `undo` only when `currentIndex > 0`;
for `redo` only when `enableRedo` holds and a future entry exists.  In the
remaining no-op cases the input record itself is returned, so reference
comparison of results detects change. -/
theorem fresh_record_characterization {T : Type}
    (options : HistoryManagerOptions) (s : HistoryState T)
    (a : HistoryAction T) :
    (historyReducerReturnsNewRecord s a options = true ↔
      ((a = HistoryAction.UNDO → 0 < s.currentIndex) ∧
       (a = HistoryAction.REDO →
         options.enableRedo = true ∧
           s.currentIndex < s.history.length - 1))) ∧
    (historyReducerReturnsNewRecord s a options = false →
      historyReducer s a options = s) := by
  cases a with
  | SET_STATE v =>
      exact ⟨⟨fun _ => ⟨fun hh => (nomatch hh), fun hh => nomatch hh⟩,
        fun _ => rfl⟩, fun hh => nomatch hh⟩
  | UNDO =>
      constructor
      · constructor
        · intro h
          exact ⟨fun _ => of_decide_eq_true h, fun hh => nomatch hh⟩
        · intro h
          exact decide_eq_true (h.1 rfl)
      · intro h
        have hz : ¬(s.currentIndex > 0) := of_decide_eq_false h
        exact undo_eq_zero options s (by omega)
  | REDO =>
      constructor
      · constructor
        · intro h
          have hand : (options.enableRedo &&
              decide (s.currentIndex < s.history.length - 1)) = true := h
          rw [Bool.and_eq_true] at hand
          exact ⟨fun hh => (nomatch hh),
            fun _ => ⟨hand.1, of_decide_eq_true hand.2⟩⟩
        · intro h
          obtain ⟨he, hlt⟩ := h.2 rfl
          show (options.enableRedo &&
            decide (s.currentIndex < s.history.length - 1)) = true
          rw [Bool.and_eq_true]
          exact ⟨he, decide_eq_true hlt⟩
      · intro h
        apply redo_eq_noop
        rintro ⟨h1, h2⟩
        have hand : (options.enableRedo &&
            decide (s.currentIndex < s.history.length - 1)) = false := h
        rw [h1, Bool.true_and] at hand
        exact of_decide_eq_false hand h2
  | RESET =>
      exact ⟨⟨fun _ => ⟨fun hh => (nomatch hh), fun hh => nomatch hh⟩,
        fun _ => rfl⟩, fun hh => nomatch hh⟩
  | CLEAR =>
      exact ⟨⟨fun _ => ⟨fun hh => (nomatch hh), fun hh => nomatch hh⟩,
        fun _ => rfl⟩, fun hh => nomatch hh⟩
  | GO_TO_INDEX i =>
      exact ⟨⟨fun _ => ⟨fun hh => (nomatch hh), fun hh => nomatch hh⟩,
        fun _ => rfl⟩, fun hh => nomatch hh⟩

theorem fresh_record_characterization_witness :
    historyReducer (⟨[5], 0, 5⟩ : HistoryState Nat) HistoryAction.REDO
      ⟨50, false⟩ = ⟨[5], 0, 5⟩ :=
  (fresh_record_characterization ⟨50, false⟩ ⟨[5], 0, 5⟩
    HistoryAction.REDO).2 (by decide)

/-- C6: `redo` advances the cursor by exactly one iff `enableRedo` is set and
a future entry exists; otherwise it returns the state unchanged, so with
`enableRedo = false` it is a permanent no-op, and it is idempotent once the
cursor is on the last entry. -/
theorem redo_characterization {T : Type} (options : HistoryManagerOptions)
    (s : HistoryState T) :
    ((historyReducer s .REDO options).currentIndex = s.currentIndex + 1 ↔
      (options.enableRedo = true ∧
        s.currentIndex < s.history.length - 1)) ∧
    (options.enableRedo = true → s.currentIndex < s.history.length - 1 →
      historyReducer s .REDO options =
        { s with currentIndex := s.currentIndex + 1 }) ∧
    (¬(options.enableRedo = true ∧
        s.currentIndex < s.history.length - 1) →
      historyReducer s .REDO options = s) ∧
    (options.enableRedo = false → historyReducer s .REDO options = s) ∧
    (s.currentIndex = s.history.length - 1 →
      historyReducer (historyReducer s .REDO options) .REDO options =
        historyReducer s .REDO options) := by
  by_cases hcond : options.enableRedo = true ∧
      s.currentIndex < s.history.length - 1
  · obtain ⟨he, hlt⟩ := hcond
    have hr := redo_eq_step options s he hlt
    rw [hr]
    refine ⟨⟨fun _ => ⟨he, hlt⟩, fun _ => rfl⟩, fun _ _ => rfl,
      fun hn => absurd ⟨he, hlt⟩ hn, ?_, ?_⟩
    · intro hf
      rw [he] at hf
      exact Bool.noConfusion hf
    · intro heq
      exact absurd hlt (by omega)
  · have hr := redo_eq_noop options s hcond
    rw [hr]
    exact ⟨⟨fun h => absurd h (by omega), fun h => absurd h hcond⟩,
      fun h1 h2 => absurd ⟨h1, h2⟩ hcond, fun _ => rfl, fun _ => rfl,
      fun _ => hr⟩

theorem redo_characterization_witness :
    historyReducer (⟨[0, 1], 0, 0⟩ : HistoryState Nat) HistoryAction.REDO
      ⟨50, true⟩ = ⟨[0, 1], 1, 0⟩ :=
  (redo_characterization ⟨50, true⟩ ⟨[0, 1], 0, 0⟩).2.1 rfl (by decide)

/-- C7: `goToIndex i` is total for every integer `i` and only repositions the
cursor to `clamp(i, 0, history.length - 1)`; history contents and the stored
initial state are untouched and no entries are created. -/
theorem goToIndex_clamps {T : Type} (options : HistoryManagerOptions)
    (s : HistoryState T) (i : Int) :
    ((historyReducer s (.GO_TO_INDEX i) options).currentIndex : Int) =
      max 0 (min i ((s.history.length : Int) - 1)) ∧
    (historyReducer s (.GO_TO_INDEX i) options).history = s.history ∧
    (historyReducer s (.GO_TO_INDEX i) options).initialState =
      s.initialState := by
  refine ⟨?_, rfl, rfl⟩
  dsimp only [historyReducer]
  omega

/-- C8: on every reachable state, `clear` collapses the history to exactly
one entry, equal to the snapshot that was current before the call (the entry
at `currentIndex`, not the initial state), and zeroes the cursor. -/
theorem clear_collapses_to_current {T : Type}
    (options : HistoryManagerOptions) (hmax : 1 ≤ options.maxHistory)
    (initialState : T) (s : HistoryState T)
    (hs : Reachable options initialState s) :
    (historyReducer s .CLEAR options).history.length = 1 ∧
    (historyReducer s .CLEAR options).history.head? =
      s.history.get? s.currentIndex ∧
    (historyReducer s .CLEAR options).currentIndex = 0 := by
  obtain ⟨h1, h2, h3⟩ := inv_reachable options hmax initialState s hs
  have hci : s.currentIndex < s.history.length := by omega
  refine ⟨rfl, ?_, rfl⟩
  rw [clear_eq]
  dsimp only
  rw [List.head?_cons, List.getD_eq_getD_get?, List.get?_eq_get hci]
  rfl

theorem clear_collapses_to_current_witness :
    (historyReducer (⟨[0, 7], 1, 0⟩ : HistoryState Nat) HistoryAction.CLEAR
      ⟨50, true⟩).history.length = 1 ∧
    (historyReducer (⟨[0, 7], 1, 0⟩ : HistoryState Nat) HistoryAction.CLEAR
      ⟨50, true⟩).history.head? = ([0, 7] : List Nat).get? 1 ∧
    (historyReducer (⟨[0, 7], 1, 0⟩ : HistoryState Nat) HistoryAction.CLEAR
      ⟨50, true⟩).currentIndex = 0 :=
  clear_collapses_to_current ⟨50, true⟩ (by decide) 0 ⟨[0, 7], 1, 0⟩ (by
    have h := Reachable.step (initialHistoryState (0 : Nat))
      (HistoryAction.SET_STATE 7) (@Reachable.init Nat ⟨50, true⟩ 0)
    have he : historyReducer (initialHistoryState (0 : Nat))
        (HistoryAction.SET_STATE 7) ⟨50, true⟩ =
        (⟨[0, 7], 1, 0⟩ : HistoryState Nat) := by decide
    rw [he] at h
    exact h)

/-- C9: on every reachable state, `reset` restores the one-element history
`[initialState]` (the construction-time value) and zeroes the cursor — even
when the initial state has already been evicted from the retained window. -/
theorem reset_restores_initial {T : Type} (options : HistoryManagerOptions)
    (initialState : T) (s : HistoryState T)
    (hs : Reachable options initialState s) :
    (historyReducer s .RESET options).history = [initialState] ∧
    (historyReducer s .RESET options).currentIndex = 0 := by
  refine ⟨?_, rfl⟩
  rw [reset_eq]
  dsimp only
  rw [reachable_initialState options initialState s hs]

theorem reset_restores_initial_witness :
    (historyReducer (⟨[1], 0, 0⟩ : HistoryState Nat) HistoryAction.RESET
      ⟨1, true⟩).history = [0] ∧
    (historyReducer (⟨[1], 0, 0⟩ : HistoryState Nat) HistoryAction.RESET
      ⟨1, true⟩).currentIndex = 0 :=
  reset_restores_initial ⟨1, true⟩ 0 ⟨[1], 0, 0⟩ (by
    have h := Reachable.step (initialHistoryState (0 : Nat))
      (HistoryAction.SET_STATE 1) (@Reachable.init Nat ⟨1, true⟩ 0)
    have he : historyReducer (initialHistoryState (0 : Nat))
        (HistoryAction.SET_STATE 1) ⟨1, true⟩ =
        (⟨[1], 0, 0⟩ : HistoryState Nat) := by decide
    rw [he] at h
    exact h)

/-- C10: with redo enabled, `undo` and `redo` are mutual inverses away from
the boundaries on every reachable state: `redo (undo s) = s` when the cursor
is positive, and `undo (redo s) = s` when a future entry exists. -/
theorem undo_redo_mutual_inverses {T : Type}
    (options : HistoryManagerOptions) (hmax : 1 ≤ options.maxHistory)
    (hredo : options.enableRedo = true) (initialState : T)
    (s : HistoryState T) (hs : Reachable options initialState s) :
    (0 < s.currentIndex →
      historyReducer (historyReducer s .UNDO options) .REDO options = s) ∧
    (s.currentIndex < s.history.length - 1 →
      historyReducer (historyReducer s .REDO options) .UNDO options = s) := by
  obtain ⟨h1, h2, h3⟩ := inv_reachable options hmax initialState s hs
  constructor
  · intro hpos
    rw [undo_eq_pos options s hpos]
    have hr : historyReducer { s with currentIndex := s.currentIndex - 1 }
        .REDO options =
        { s with currentIndex := s.currentIndex - 1 + 1 } := by
      apply redo_eq_step options _ hredo
      dsimp only
      omega
    rw [hr]
    have hc : s.currentIndex - 1 + 1 = s.currentIndex := by omega
    rw [hc]
  · intro hlt
    rw [redo_eq_step options s hredo hlt]
    have hu : historyReducer { s with currentIndex := s.currentIndex + 1 }
        .UNDO options =
        { s with currentIndex := s.currentIndex + 1 - 1 } := by
      apply undo_eq_pos options
      dsimp only
      omega
    rw [hu, Nat.add_sub_cancel]

theorem undo_redo_mutual_inverses_witness :
    historyReducer (historyReducer (⟨[0, 1], 1, 0⟩ : HistoryState Nat)
      HistoryAction.UNDO ⟨50, true⟩) HistoryAction.REDO ⟨50, true⟩ =
      ⟨[0, 1], 1, 0⟩ :=
  (undo_redo_mutual_inverses ⟨50, true⟩ (by decide) rfl 0 ⟨[0, 1], 1, 0⟩ (by
    have h := Reachable.step (initialHistoryState (0 : Nat))
      (HistoryAction.SET_STATE 1) (@Reachable.init Nat ⟨50, true⟩ 0)
    have he : historyReducer (initialHistoryState (0 : Nat))
        (HistoryAction.SET_STATE 1) ⟨50, true⟩ =
        (⟨[0, 1], 1, 0⟩ : HistoryState Nat) := by decide
    rw [he] at h
    exact h)).1 (by decide)

end ReactHistoryState
